import Mathlib

/-!
Verification of the merge core of the `test_perf` version-control library.

The definitions below are a shallow embedding of the Go sources:
 * the Myers line differ (`myersDifferer`: `GetShortestPath`, `Backtrack`, `Diff`),
 * the three-way file merger (`diff3`: `writeChunks`, `writeChunk`, friends),
 * the merge-base walker (`getCommonParents` over the flagged priority queue),
 * the merge orchestrator (`Merge`, `nonFastForwardMerge`, `hasUncommittedFiles`,
   `MergeMsg`, `MergeMsgFileContent`).

Go slice indexing may panic; that partiality is modelled with `Option`
(a failed index is `none`).  Machine integers are modelled as `Int`:
no value in these algorithms approaches the 64-bit range.
-/

namespace TestPerf

/-- A line of a file: `fileLine{number, text}` from `diff3.go`. -/
structure FileLine where
  number : Int
  text : String
deriving DecidableEq, Repr

/-- `fileDiffType`: insert / delete / equal (Go constants `fileDiffIns`, `fileDiffDel`, `fileDiffEql`). -/
inductive FileDiffType where
  | ins : FileDiffType
  | del : FileDiffType
  | eql : FileDiffType
deriving DecidableEq, Repr

/-- `fileDiff`: a single edit op; the Go struct holds nullable pointers `lineA`, `lineB`. -/
structure FileDiff where
  lineA : Option FileLine
  lineB : Option FileLine
  diffType : FileDiffType
deriving DecidableEq, Repr

/-- `getIndexV`: transform a (possibly negative) diagonal into an index of `v`. -/
def getIndexV (lenA lenB : Nat) (val : Int) : Int :=
  val + ((lenA : Int) + (lenB : Int))

/-- Read `v[i]`; `none` models the Go runtime panic on an out-of-range index. -/
def vget (v : List Int) (i : Int) : Option Int :=
  if h : 0 ≤ i ∧ i.toNat < v.length then some (v.get ⟨i.toNat, h.2⟩) else none

/-- Write `v[i] = x`; `none` models the Go runtime panic on an out-of-range index. -/
def vset (v : List Int) (i : Int) (x : Int) : Option (List Int) :=
  if 0 ≤ i ∧ i.toNat < v.length then some (v.set i.toNat x) else none

/-- The text of line `i`, used by the snake loop (both indexes are in range at call sites). -/
def textAt (l : List FileLine) (i : Int) : String :=
  ((l.get? i.toNat).map FileLine.text).getD ""

/-- The snake loop of `GetShortestPath`:
`for x < n && y < m && md.a[x].text == md.b[y].text { x++; y++ }`.
The fuel is always called with at least `a.length + 1`, which the loop cannot exhaust. -/
def snakeF (a b : List FileLine) : Nat → Int → Int → Int × Int
  | 0, x, y => (x, y)
  | f + 1, x, y =>
    if 0 ≤ x ∧ 0 ≤ y ∧ x < (a.length : Int) ∧ y < (b.length : Int) ∧ textAt a x = textAt b y
    then snakeF a b f (x + 1) (y + 1)
    else (x, y)

/-- The branch condition `k == -d || (k != d && v[i1] < v[i2])` with Go's
left-to-right short-circuit evaluation (reads of `v` can panic). -/
def chooseDown (a b : List FileLine) (d : Nat) (k : Int) (v : List Int) : Option Bool :=
  if k = -(d : Int) then some true
  else if k ≠ (d : Int) then
    match vget v (getIndexV a.length b.length (k - 1)),
          vget v (getIndexV a.length b.length (k + 1)) with
    | some x1, some x2 => some (decide (x1 < x2))
    | _, _ => none
  else some false

/-- The body of the inner `k` loop of `GetShortestPath`: pick the predecessor
diagonal, extend the snake, store `v[k] = x`; returns the new `v` and `(x, y)`. -/
def stepK (a b : List FileLine) (d : Nat) (k : Int) (v : List Int) :
    Option (List Int × Int × Int) := do
  let down ← chooseDown a b d k v
  let x0 ←
    if down then vget v (getIndexV a.length b.length (k + 1))
    else (vget v (getIndexV a.length b.length (k - 1))).map (· + 1)
  let p := snakeF a b (a.length + b.length + 1) x0 (x0 - k)
  let v2 ← vset v (getIndexV a.length b.length k) p.1
  some (v2, p.1, p.2)

/-- The inner `k` loop: `for k := -d; k <= d; k = k + 2`; returns `Sum.inr v`
when the termination test `x >= n && y >= m` fires (the Go code snapshots `v`
and returns), else `Sum.inl v` after the round completes. -/
def kloop (a b : List FileLine) (d : Nat) : Nat → Int → List Int → Option (List Int ⊕ List Int)
  | 0, _, v => some (Sum.inl v)
  | c + 1, k, v => do
    let r ← stepK a b d k v
    if (a.length : Int) ≤ r.2.1 ∧ (b.length : Int) ≤ r.2.2 then some (Sum.inr r.1)
    else kloop a b d c (k + 2) r.1

/-- The outer `d` loop of `GetShortestPath` (`for d := 0; d <= max; d++`),
collecting one snapshot of `v` per round; returns `[]` (Go `nil`) if the loop
runs out without the termination test firing. -/
def dloop (a b : List FileLine) : Nat → Nat → List (List Int) → List Int →
    Option (List (List Int))
  | 0, _, _, _ => some []
  | r + 1, d, tr, v => do
    let s ← kloop a b d (d + 1) (-(d : Int)) v
    match s with
    | Sum.inr v2 => some (tr ++ [v2])
    | Sum.inl v2 => dloop a b r (d + 1) (tr ++ [v2]) v2

/-- `GetShortestPath`: `max = n + m`, `v` of length `2*max + 1`, rounds `d = 0..max`. -/
def getShortestPath (a b : List FileLine) : Option (List (List Int)) :=
  dloop a b (a.length + b.length + 1) 0 [] (List.replicate (2 * (a.length + b.length) + 1) 0)

/-- `backtrackEl`: one step `{prevX, prevY, x, y}` sent on the channel. -/
structure BacktrackEl where
  prevX : Int
  prevY : Int
  x : Int
  y : Int
deriving DecidableEq, Repr

/-- The inner loop of `Backtrack`:
`for x > prevX && y > prevY { ch <- {x, y, x-1, y-1}; x--; y-- }`.
Returns the emitted elements in order plus the final `(x, y)`. -/
def diagSteps : Nat → Int → Int → Int → Int → List BacktrackEl × Int × Int
  | 0, x, y, _, _ => ([], x, y)
  | f + 1, x, y, px, py =>
    if px < x ∧ py < y then
      let r := diagSteps f (x - 1) (y - 1) px py
      (⟨x - 1, y - 1, x, y⟩ :: r.1, r.2.1, r.2.2)
    else ([], x, y)

/-- One iteration of the backtrack loop at trace position `d`: read `trace[d]`,
recompute the branch, emit the snake steps and (when `d > 0`) the edit step. -/
def backStep (a b : List FileLine) (trace : List (List Int)) (d : Nat) (x y : Int) :
    Option (List BacktrackEl × Int × Int) := do
  let v ← trace.get? d
  let k := x - y
  let down ← chooseDown a b d k v
  let prevK := if down then k + 1 else k - 1
  let prevX ← vget v (getIndexV a.length b.length prevK)
  let prevY := prevX - prevK
  let r := diagSteps (a.length + b.length + 1) x y prevX prevY
  let steps := if 0 < d then r.1 ++ [⟨prevX, prevY, r.2.1, r.2.2⟩] else r.1
  some (steps, prevX, prevY)

/-- The backtrack loop, iterating `d = trLen-1` down to `0`, threading `(x, y)`. -/
def btLoop (a b : List FileLine) (trace : List (List Int)) :
    Nat → Int → Int → Option (List BacktrackEl)
  | 0, _, _ => some []
  | i + 1, x, y => do
    let s ← backStep a b trace i x y
    let rest ← btLoop a b trace i s.2.1 s.2.2
    some (s.1 ++ rest)

/-- `Backtrack`: start from `(lenA, lenB)` and walk the trace backwards;
the result lists the channel elements in emission order. -/
def backtrack (a b : List FileLine) (trace : List (List Int)) : Option (List BacktrackEl) :=
  btLoop a b trace trace.length a.length b.length

/-- `var lineA fileLine; if i < len { lineA = l[i] }`: the zero `fileLine` when
`i` is past the end, the actual line when `0 ≤ i < len`, a panic (`none`) when negative. -/
def lineAt (l : List FileLine) (i : Int) : Option FileLine :=
  if i < (l.length : Int) then
    if h : 0 ≤ i ∧ i.toNat < l.length then some (l.get ⟨i.toNat, h.2⟩) else none
  else some ⟨0, ""⟩

/-- The classification in `Diff`'s receive loop: `x == prevX` is an insert,
`y == prevY` a delete, otherwise an equal op. -/
def classifyEl (a b : List FileLine) (el : BacktrackEl) : Option FileDiff := do
  let la ← lineAt a el.prevX
  let lb ← lineAt b el.prevY
  if el.x = el.prevX then some ⟨none, some lb, .ins⟩
  else if el.y = el.prevY then some ⟨some la, none, .del⟩
  else some ⟨some la, some lb, .eql⟩

/-- `Diff`: run `GetShortestPath`, backtrack, and classify every element. -/
def Diff (a b : List FileLine) : Option (List FileDiff) := do
  let trace ← getShortestPath a b
  let els ← backtrack a b trace
  els.mapM (classifyEl a b)

/-- Applying an edit script to `a` (the reading of claim C1): a `del` or `eql`
op consumes one line of `a`, an `ins` or `eql` op emits its `lineB`; the whole
of `a` must be consumed. -/
def applyOps : List FileDiff → List FileLine → Option (List FileLine)
  | [], rest => if rest = [] then some [] else none
  | op :: ops, rest =>
    match op.diffType with
    | .ins => do
      let lb ← op.lineB
      let out ← applyOps ops rest
      some (lb :: out)
    | .del =>
      match rest with
      | [] => none
      | _ :: rest2 => applyOps ops rest2
    | .eql =>
      match rest with
      | [] => none
      | _ :: rest2 => do
        let lb ← op.lineB
        let out ← applyOps ops rest2
        some (lb :: out)

/-- The Myers edit distance of claim C5: the minimal number of single-line
insertions and deletions transforming one line sequence into the other. -/
def editDist : List String → List String → Nat
  | [], bs => bs.length
  | _ :: as, [] => as.length + 1
  | a :: as, b :: bs =>
    let s := min (editDist as (b :: bs) + 1) (editDist (a :: as) bs + 1)
    if a = b then min (editDist as bs) s else s
termination_by as bs => as.length + bs.length

/-- The number of non-`eql` ops of a script (claim C5's count). -/
def countNonEql (ops : List FileDiff) : Nat :=
  (ops.filter fun op => decide (op.diffType ≠ .eql)).length

/-!
### A mathematical model of edit paths, used to verify the differ

`Reach a b x y d` says the Myers edit graph of `a`, `b` has a path from
`(0,0)` to `(x,y)` with `d` non-diagonal (insert/delete) steps; diagonal
steps are allowed only on equal lines.  `ReachE` is the relaxed version the
algorithm's vector values actually satisfy: horizontal and vertical steps may
run past the ends of the files ("phantom" endpoints), diagonal steps may not.
`CT as bs d` says `d` single-line insertions and deletions transform `as`
into `bs`.
-/

/-- The text sequence of a file. -/
def texts (l : List FileLine) : List String := l.map FileLine.text

/-- Edit-graph reachability from the origin, inserts/deletes allowed past the
file ends, diagonal steps only inside the grid on equal lines. -/
inductive ReachE (a b : List FileLine) : Int → Int → Nat → Prop where
  | start : ReachE a b 0 0 0
  | del {x y : Int} {d : Nat} : ReachE a b x y d → ReachE a b (x + 1) y (d + 1)
  | ins {x y : Int} {d : Nat} : ReachE a b x y d → ReachE a b x (y + 1) (d + 1)
  | diag {x y : Int} {d : Nat} : ReachE a b x y d → 0 ≤ x → x < (a.length : Int) →
      0 ≤ y → y < (b.length : Int) → textAt a x = textAt b y →
      ReachE a b (x + 1) (y + 1) d

/-- Edit-graph reachability from the origin, all steps inside the grid. -/
inductive Reach (a b : List FileLine) : Int → Int → Nat → Prop where
  | start : Reach a b 0 0 0
  | del {x y : Int} {d : Nat} : Reach a b x y d → x < (a.length : Int) →
      Reach a b (x + 1) y (d + 1)
  | ins {x y : Int} {d : Nat} : Reach a b x y d → y < (b.length : Int) →
      Reach a b x (y + 1) (d + 1)
  | diag {x y : Int} {d : Nat} : Reach a b x y d → x < (a.length : Int) →
      y < (b.length : Int) → textAt a x = textAt b y →
      Reach a b (x + 1) (y + 1) d

/-- `CT as bs d`: `d` single-line insertions and deletions transform `as`
into `bs` (the Myers edit scripts of claim C5). -/
inductive CT : List String → List String → Nat → Prop where
  | nil : CT [] [] 0
  | del {as bs : List String} {d : Nat} (t : String) : CT as bs d → CT (t :: as) bs (d + 1)
  | ins {as bs : List String} {d : Nat} (t : String) : CT as bs d → CT as (t :: bs) (d + 1)
  | diag {as bs : List String} {d : Nat} (t : String) : CT as bs d → CT (t :: as) (t :: bs) d

/-- The diagonals processed in round `d`: `-d ≤ k ≤ d` with `k ≡ d (mod 2)`. -/
def inRound (d : Nat) (k : Int) : Prop :=
  -(d : Int) ≤ k ∧ k ≤ (d : Int) ∧ (k + (d : Int)) % 2 = 0

instance (d : Nat) (k : Int) : Decidable (inRound d k) := by
  unfold inRound
  exact inferInstanceAs (Decidable (_ ∧ _ ∧ _))

/-- The x-coordinate the algorithm moves to on diagonal `k` in round `d`,
before the snake, as a function of the previous round's values `W`:
the branch `k == -d || (k != d && v[k-1] < v[k+1])` picks `v[k+1]` (a move
down), otherwise `v[k-1] + 1` (a move right). -/
def moveX (d : Nat) (W : Int → Int) (k : Int) : Int :=
  if k = -(d : Int) then W (k + 1)
  else if k ≠ (d : Int) ∧ W (k - 1) < W (k + 1) then W (k + 1)
  else W (k - 1) + 1

/-- The idealised contents of the vector `v`: `WA a b l k` is the value of
diagonal `k` after `l` completed rounds (`WA 0` is the initial all-zero
vector); round `d` rewrites exactly the diagonals `inRound d`. -/
def WA (a b : List FileLine) : Nat → Int → Int
  | 0, _ => 0
  | d + 1, k =>
    if inRound d k then
      (snakeF a b (a.length + b.length + 1) (moveX d (WA a b d) k)
        (moveX d (WA a b d) k - k)).1
    else WA a b d k

/-- The list holding a diagonal function `f` at offsets `-max .. max`. -/
def arr (a b : List FileLine) (f : Int → Int) : List Int :=
  (List.range (2 * (a.length + b.length) + 1)).map
    (fun i => f ((i : Int) - (a.length + b.length)))

/-- Mid-round contents of `v`: during round `d`, the diagonals `< k0` are
already rewritten, the rest still hold the previous round's values. -/
def Wmid (a b : List FileLine) (d : Nat) (k0 : Int) : Int → Int :=
  fun j => if j < k0 then WA a b (d + 1) j else WA a b d j

/-- The elements emitted by the backtrack snake loop descending `t` times
from `(x, y)`. -/
def diagEls : Nat → Int → Int → List BacktrackEl
  | 0, _, _ => []
  | t + 1, x, y => ⟨x - 1, y - 1, x, y⟩ :: diagEls t (x - 1) (y - 1)

/-- The termination test `x >= n && y >= m` of `GetShortestPath`, on the
ideal vector value of diagonal `k` after round `d`. -/
def fireCond (a b : List FileLine) (d : Nat) (k : Int) : Prop :=
  (a.length : Int) ≤ WA a b (d + 1) k ∧ (b.length : Int) ≤ WA a b (d + 1) k - k

/-- The snake-loop guard of `GetShortestPath` at `(x, y)`. -/
def sguard (a b : List FileLine) (x y : Int) : Prop :=
  0 ≤ x ∧ 0 ≤ y ∧ x < (a.length : Int) ∧ y < (b.length : Int) ∧ textAt a x = textAt b y

/-- The Myers edit distance of the two files. -/
def Dstar (a b : List FileLine) : Nat := editDist (texts a) (texts b)

/-!
### The merge orchestrator (`worktree_merge.go`)

`Worktree.Merge` drives external collaborators (reference storage, object
storage, the tree differ, the filesystem).  Those collaborators live outside
this repository, so they are modelled as an environment of injected results
(`MergeEnv`), and the orchestrator is embedded as a function that, besides its
Go return value, records the ordered list of collaborator calls it made
(`MergeEff`).  External errors are identified by a numeric code so a theorem
can say that an error is propagated unchanged.
-/

/-- The sentinel errors of `worktree_merge.go` plus a tag for errors of
external collaborators. -/
inductive GErr where
  | headNotFound
  | inProgress
  | uncommitted
  | commitNeeded
  | withConflicts
  | noCommonParent
  | external (code : Nat)
deriving DecidableEq, Repr

/-- One collaborator call made by the orchestrator. -/
inductive MergeEff where
  | readHead
  | readReference (branch : String)
  | ffCheck
  | updateHead (h : Nat)
  | resetHard (h : Nat)
  | readMergeHead
  | readStagedDiff
  | readUnstagedDiff
  | getCommit (h : Nat)
  | commonParents
  | setMergeHead (h : Nat)
  | setOrigHead (h : Nat)
  | mergeCommitsRun
  | setMergeMsg
deriving DecidableEq, Repr

/-- Calls that modify the repository state (references, merge markers, index,
worktree); the remaining calls are reads. -/
def isWriteEff : MergeEff → Bool
  | .updateHead _ => true
  | .resetHard _ => true
  | .setMergeHead _ => true
  | .setOrigHead _ => true
  | .mergeCommitsRun => true
  | .setMergeMsg => true
  | _ => false

/-- The action of one merkletrie change; `Change.Action()` itself can error. -/
inductive MAction where
  | del
  | ins
  | mod
deriving DecidableEq, Repr

/-- A merkletrie change as seen by `hasUncommittedFiles`. -/
structure MChange where
  action : Except Nat MAction
deriving Repr

/-- The results the external collaborators return during one `Merge` call. -/
structure MergeEnv where
  headRes : Except Nat (Option Nat)
  refRes : Except Nat Nat
  ffRes : Except Nat Bool
  updateHeadRes : Option Nat
  resetRes : Option Nat
  mergeHeadRes : Except Nat (Option Nat)
  stagedRes : Except Nat (List MChange)
  unstagedRes : Except Nat (List MChange)
  getCommitOursRes : Option Nat
  getCommitTheirsRes : Option Nat
  parentRes : Except Nat Unit
  setMergeHeadRes : Option Nat
  setOrigHeadRes : Option Nat
  mergeCommitsRes : Except Nat Bool
  setMergeMsgRes : Option Nat

/-- The filter loop of `hasUncommittedFiles`: call `Action()` on every change,
abort on the first error, keep the changes whose action is not `Delete`. -/
def filterNonDel : List MChange → Except Nat (List MChange)
  | [] => .ok []
  | c :: cs =>
    match c.action with
    | .error e => .error e
    | .ok a =>
      match filterNonDel cs with
      | .error e => .error e
      | .ok rest => .ok (if a ≠ .del then c :: rest else rest)

/-- `hasUncommittedFiles`: staged diff, then unstaged diff with deletes
excluded; returns `(bool, err)` plus the collaborator calls made. -/
def hasUncommittedFiles (env : MergeEnv) : (Bool × Option Nat) × List MergeEff :=
  match env.stagedRes with
  | .error e => ((false, some e), [.readStagedDiff])
  | .ok staged =>
    if staged.length ≠ 0 then ((true, none), [.readStagedDiff])
    else
      match env.unstagedRes with
      | .error e => ((false, some e), [.readStagedDiff, .readUnstagedDiff])
      | .ok unstaged =>
        match filterNonDel unstaged with
        | .error e => ((false, some e), [.readStagedDiff, .readUnstagedDiff])
        | .ok withoutDel =>
          if withoutDel.length ≠ 0 then ((true, none), [.readStagedDiff, .readUnstagedDiff])
          else ((false, none), [.readStagedDiff, .readUnstagedDiff])

/-- `nonFastForwardMerge`.  Note: the Go code binds
`hasUncommittedFiles, err := w.hasUncommittedFiles(ours)` and then tests only
the boolean; the error value is never examined, and the embedding mirrors
that. -/
def nonFastForwardMerge (env : MergeEnv) (ours theirs : Nat) :
    (String × Option GErr) × List MergeEff :=
  match env.mergeHeadRes with
  | .error e => (("", some (.external e)), [.readMergeHead])
  | .ok (some _) => (("", some .inProgress), [.readMergeHead])
  | .ok none =>
    if (hasUncommittedFiles env).1.1 then
      (("", some .uncommitted), .readMergeHead :: (hasUncommittedFiles env).2)
    else
      match env.getCommitOursRes with
      | some e =>
        (("", some (.external e)),
          .readMergeHead :: (hasUncommittedFiles env).2 ++ [.getCommit ours])
      | none =>
        match env.getCommitTheirsRes with
        | some e =>
          (("", some (.external e)),
            .readMergeHead :: (hasUncommittedFiles env).2 ++
              [.getCommit ours, .getCommit theirs])
        | none =>
          match env.parentRes with
          | .error e =>
            (("", some (.external e)),
              .readMergeHead :: (hasUncommittedFiles env).2 ++
                [.getCommit ours, .getCommit theirs, .commonParents])
          | .ok _ =>
            match env.setMergeHeadRes with
            | some e =>
              (("", some (.external e)),
                .readMergeHead :: (hasUncommittedFiles env).2 ++
                  [.getCommit ours, .getCommit theirs, .commonParents,
                    .setMergeHead theirs])
            | none =>
              match env.setOrigHeadRes with
              | some e =>
                (("", some (.external e)),
                  .readMergeHead :: (hasUncommittedFiles env).2 ++
                    [.getCommit ours, .getCommit theirs, .commonParents,
                      .setMergeHead theirs, .setOrigHead ours])
              | none =>
                match env.mergeCommitsRes with
                | .error e =>
                  (("", some (.external e)),
                    .readMergeHead :: (hasUncommittedFiles env).2 ++
                      [.getCommit ours, .getCommit theirs, .commonParents,
                        .setMergeHead theirs, .setOrigHead ours, .mergeCommitsRun])
                | .ok hasConflicts =>
                  match env.setMergeMsgRes with
                  | some e =>
                    (("", some (.external e)),
                      .readMergeHead :: (hasUncommittedFiles env).2 ++
                        [.getCommit ours, .getCommit theirs, .commonParents,
                          .setMergeHead theirs, .setOrigHead ours, .mergeCommitsRun,
                          .setMergeMsg])
                  | none =>
                    if hasConflicts then
                      (("Automatic merge failed; fix conflicts and then commit the result.\n",
                          some .withConflicts),
                        .readMergeHead :: (hasUncommittedFiles env).2 ++
                          [.getCommit ours, .getCommit theirs, .commonParents,
                            .setMergeHead theirs, .setOrigHead ours, .mergeCommitsRun,
                            .setMergeMsg])
                    else
                      (("Create merge commit to continue merge process",
                          some .commitNeeded),
                        .readMergeHead :: (hasUncommittedFiles env).2 ++
                          [.getCommit ours, .getCommit theirs, .commonParents,
                            .setMergeHead theirs, .setOrigHead ours, .mergeCommitsRun,
                            .setMergeMsg])

/-- `Worktree.Merge(theirsBranch)`: head and branch resolution, the
fast-forward check, then either the fast-forward path or
`nonFastForwardMerge`. -/
def MergeW (env : MergeEnv) (branch : String) : (String × Option GErr) × List MergeEff :=
  match env.headRes with
  | .error e => (("", some (.external e)), [.readHead])
  | .ok none => (("", some .headNotFound), [.readHead])
  | .ok (some ours) =>
    match env.refRes with
    | .error e => (("", some (.external e)), [.readHead, .readReference branch])
    | .ok theirs =>
      match env.ffRes with
      | .error e => (("", some (.external e)), [.readHead, .readReference branch, .ffCheck])
      | .ok ff =>
        if ff then
          match env.updateHeadRes with
          | some e =>
            (("", some (.external e)),
              [.readHead, .readReference branch, .ffCheck, .updateHead theirs])
          | none =>
            match env.resetRes with
            | some e =>
              (("", some (.external e)),
                [.readHead, .readReference branch, .ffCheck, .updateHead theirs,
                  .resetHard theirs])
            | none =>
              (("", none),
                [.readHead, .readReference branch, .ffCheck, .updateHead theirs,
                  .resetHard theirs])
        else
          match (nonFastForwardMerge env ours theirs).1.2 with
          | some e =>
            (((nonFastForwardMerge env ours theirs).1.1, some e),
              [.readHead, .readReference branch, .ffCheck] ++
                (nonFastForwardMerge env ours theirs).2)
          | none =>
            (("", none),
              [.readHead, .readReference branch, .ffCheck] ++
                (nonFastForwardMerge env ours theirs).2)

/-- `Worktree.MergeMsg`: a storage error is swallowed and reported as an
empty message with a nil error. -/
def MergeMsgW (res : Except Nat String) : String × Option Nat :=
  match res with
  | .error _ => ("", none)
  | .ok msg => (msg, none)

/-- `Worktree.MergeMsgFileContent`: same swallowing shape as `MergeMsg`. -/
def MergeMsgFileContentW (res : Except Nat String) : String × Option Nat :=
  match res with
  | .error _ => ("", none)
  | .ok msg => (msg, none)

/-- Calls that touch the merge markers or run the three-way merge machinery. -/
def isMergeStateEff : MergeEff → Bool
  | .setMergeHead _ => true
  | .setOrigHead _ => true
  | .setMergeMsg => true
  | .mergeCommitsRun => true
  | _ => false

/-!
### Theorems for the orchestrator and differ safety claims
-/

/-- C7: with two empty inputs `max = 0`, the vector `v` has length `1`, and the
very first branch of `GetShortestPath` (`k = 0 = -d`, round `d = 0`) reads
`v[getIndexV(1)] = v[1]`, which is out of bounds: the differ panics instead of
returning an empty op sequence. -/
theorem getShortestPath_empty_empty_oob :
    getShortestPath [] [] = none ∧ Diff [] [] = none ∧
      vget (List.replicate (2 * (0 + 0) + 1) 0) (getIndexV 0 0 (0 + 1)) = none := by
  decide

/-- C1 (counterexample): for `a = []`, `b = ["1", "2"]` the script returned by
`Diff` is emitted from the end of the file backwards, so applying it to `a` in
script order produces the lines of `b` reversed, not `b`. -/
theorem diff_apply_in_order_cex :
    (Diff [] [⟨0, "1"⟩, ⟨1, "2"⟩]).bind (fun ops => applyOps ops []) =
        some [⟨1, "2"⟩, ⟨0, "1"⟩] ∧
      (Diff [] [⟨0, "1"⟩, ⟨1, "2"⟩]).bind (fun ops => applyOps ops []) ≠
        some [⟨0, "1"⟩, ⟨1, "2"⟩] := by
  decide

/-- C6: when the head resolves, the branch resolves, and the fast-forward test
answers yes, `Merge` updates `HEAD` to the target hash, hard-resets the
worktree to it, and returns with no error (the fast-forwarded status); the
complete call trace shows no `mergeCommits` run and no write of `MERGE_HEAD`,
`ORIG_HEAD` or `MERGE_MSG`. -/
theorem merge_fast_forward (env : MergeEnv) (branch : String) (ours theirs : Nat)
    (h1 : env.headRes = .ok (some ours)) (h2 : env.refRes = .ok theirs)
    (h3 : env.ffRes = .ok true) (h4 : env.updateHeadRes = none)
    (h5 : env.resetRes = none) :
    MergeW env branch =
        (("", none),
          [.readHead, .readReference branch, .ffCheck, .updateHead theirs,
            .resetHard theirs]) ∧
      (MergeW env branch).2.filter isMergeStateEff = [] := by
  have hM : MergeW env branch =
      (("", none),
        [.readHead, .readReference branch, .ffCheck, .updateHead theirs,
          .resetHard theirs]) := by
    unfold MergeW
    rw [h1, h2, h3, h4, h5]
    rfl
  refine ⟨hM, ?_⟩
  rw [hM]
  rfl

/-- Witness for C6 at a concrete environment. -/
theorem merge_fast_forward_witness :
    MergeW
        { headRes := .ok (some 5), refRes := .ok 9, ffRes := .ok true,
          updateHeadRes := none, resetRes := none, mergeHeadRes := .ok none,
          stagedRes := .ok [], unstagedRes := .ok [], getCommitOursRes := none,
          getCommitTheirsRes := none, parentRes := .ok (), setMergeHeadRes := none,
          setOrigHeadRes := none, mergeCommitsRes := .ok false,
          setMergeMsgRes := none } "topic" =
      (("", none),
        [.readHead, .readReference "topic", .ffCheck, .updateHead 9, .resetHard 9]) :=
  (merge_fast_forward _ "topic" 5 9 rfl rfl rfl rfl rfl).1

/-- The environment of the C8 failing input: the staged-changes diff inside
`hasUncommittedFiles` fails with external error `42`; every other collaborator
behaves normally and the non-fast-forward merge runs clean. -/
def envC8 : MergeEnv :=
  { headRes := .ok (some 5), refRes := .ok 9, ffRes := .ok false,
    updateHeadRes := none, resetRes := none, mergeHeadRes := .ok none,
    stagedRes := .error 42, unstagedRes := .ok [], getCommitOursRes := none,
    getCommitTheirsRes := none, parentRes := .ok (), setMergeHeadRes := none,
    setOrigHeadRes := none, mergeCommitsRes := .ok false, setMergeMsgRes := none }

/-- C8: `nonFastForwardMerge` binds the error of `hasUncommittedFiles` but
never tests it.  With the staged-diff computation failing (error `42`), the
merge does not abort with that error: it runs to completion, writes
`MERGE_HEAD`/`ORIG_HEAD`, runs the three-way merge and returns the
commit-needed sentinel. -/
theorem merge_drops_uncommitted_check_error :
    (MergeW envC8 "topic").1.2 = some .commitNeeded ∧
      (MergeW envC8 "topic").1.2 ≠ some (.external 42) ∧
      MergeEff.mergeCommitsRun ∈ (MergeW envC8 "topic").2 := by
  decide

/-- The two calls `hasUncommittedFiles` can make are both reads. -/
theorem hasUncommitted_reads (env : MergeEnv) :
    (hasUncommittedFiles env).2 = [.readStagedDiff] ∨
      (hasUncommittedFiles env).2 = [.readStagedDiff, .readUnstagedDiff] := by
  unfold hasUncommittedFiles
  repeat' split
  all_goals first | exact Or.inl rfl | exact Or.inr rfl

/-- `nonFastForwardMerge` answers the uncommitted sentinel only after pure
reads. -/
theorem nfwd_uncommitted_reads (env : MergeEnv) (ours theirs : Nat)
    (h : (nonFastForwardMerge env ours theirs).1.2 = some .uncommitted) :
    (nonFastForwardMerge env ours theirs).2.filter isWriteEff = [] := by
  revert h
  unfold nonFastForwardMerge
  repeat' split
  all_goals intro h
  all_goals try simp at h
  rcases hasUncommitted_reads env with h2 | h2 <;> rw [h2] <;> rfl

/-- C9: whenever `Merge` returns the uncommitted-changes sentinel, the call
trace contains no write at all: `MERGE_HEAD`, `ORIG_HEAD`, `MERGE_MSG`, the
index and the worktree are untouched. -/
theorem merge_uncommitted_no_writes (env : MergeEnv) (branch : String)
    (h : (MergeW env branch).1.2 = some .uncommitted) :
    (MergeW env branch).2.filter isWriteEff = [] := by
  revert h
  unfold MergeW
  repeat' split
  all_goals intro h
  all_goals try simp at h
  rename_i e heq
  subst h
  have hw := nfwd_uncommitted_reads env _ _ heq
  simp [List.filter_append, List.filter, isWriteEff, hw]

/-- Witness for C9 at a concrete environment with one staged change. -/
theorem merge_uncommitted_no_writes_witness :
    (MergeW
        { headRes := .ok (some 5), refRes := .ok 9, ffRes := .ok false,
          updateHeadRes := none, resetRes := none, mergeHeadRes := .ok none,
          stagedRes := .ok [⟨.ok .mod⟩], unstagedRes := .ok [],
          getCommitOursRes := none, getCommitTheirsRes := none, parentRes := .ok (),
          setMergeHeadRes := none, setOrigHeadRes := none,
          mergeCommitsRes := .ok false, setMergeMsgRes := none } "topic").2.filter
        isWriteEff = [] :=
  merge_uncommitted_no_writes _ "topic" (by decide)

/-- C10: `MergeMsg` and `MergeMsgFileContent` never surface an error: on a
storage failure both return the empty string with a nil error, exactly what an
absent `MERGE_MSG` produces. -/
theorem mergeMsg_swallows_errors (res1 res2 : Except Nat String) :
    (MergeMsgW res1).2 = none ∧ (MergeMsgFileContentW res2).2 = none ∧
      (∀ e, MergeMsgW (.error e) = ("", none)) ∧
      (∀ e, MergeMsgFileContentW (.error e) = ("", none)) := by
  refine ⟨?_, ?_, fun e => rfl, fun e => rfl⟩
  · rcases res1 with e | m <;> rfl
  · rcases res2 with e | m <;> rfl

/-!
### Path lemmas
-/

theorem reach_nonneg {a b : List FileLine} {x y : Int} {d : Nat}
    (h : Reach a b x y d) : 0 ≤ x ∧ 0 ≤ y := by
  induction h with
  | start => exact ⟨le_refl 0, le_refl 0⟩
  | del _ _ ih => exact ⟨by omega, ih.2⟩
  | ins _ _ ih => exact ⟨ih.1, by omega⟩
  | diag _ _ _ _ ih => exact ⟨by omega, by omega⟩

theorem reach_le {a b : List FileLine} {x y : Int} {d : Nat}
    (h : Reach a b x y d) : x ≤ (a.length : Int) ∧ y ≤ (b.length : Int) := by
  induction h with
  | start => exact ⟨Int.ofNat_nonneg _, Int.ofNat_nonneg _⟩
  | del _ hx ih => exact ⟨by omega, ih.2⟩
  | ins _ hy ih => exact ⟨ih.1, by omega⟩
  | diag _ hx hy _ ih => exact ⟨by omega, by omega⟩

theorem reachE_of_reach {a b : List FileLine} {x y : Int} {d : Nat}
    (h : Reach a b x y d) : ReachE a b x y d := by
  induction h with
  | start => exact .start
  | del _ _ ih => exact .del ih
  | ins _ _ ih => exact .ins ih
  | diag h hx hy ht ih =>
    have hn := reach_nonneg h
    exact .diag ih hn.1 hx hn.2 hy ht

theorem reachE_nonneg {a b : List FileLine} {x y : Int} {d : Nat}
    (h : ReachE a b x y d) : 0 ≤ x ∧ 0 ≤ y := by
  induction h with
  | start => exact ⟨le_refl 0, le_refl 0⟩
  | del _ ih => exact ⟨by omega, ih.2⟩
  | ins _ ih => exact ⟨ih.1, by omega⟩
  | diag _ _ _ _ _ _ ih => exact ⟨by omega, by omega⟩

theorem reachE_bound {a b : List FileLine} {x y : Int} {d : Nat}
    (h : ReachE a b x y d) : x - y ≤ (d : Int) ∧ y - x ≤ (d : Int) := by
  induction h with
  | start => exact ⟨by omega, by omega⟩
  | del _ ih => push_cast; push_cast at ih; omega
  | ins _ ih => push_cast; push_cast at ih; omega
  | diag _ _ _ _ _ _ ih => exact ⟨by omega, by omega⟩

theorem reachE_parity {a b : List FileLine} {x y : Int} {d : Nat}
    (h : ReachE a b x y d) : (x - y + (d : Int)) % 2 = 0 := by
  induction h with
  | start => decide
  | del _ ih => push_cast; push_cast at ih; omega
  | ins _ ih => push_cast; push_cast at ih; omega
  | diag _ _ _ _ _ _ ih => omega

/-- Clamping a relaxed path that overshoots both ends of the grid: the
overshoot steps can be dropped, giving a real path to the corner that is
shorter by at least the overshoot. -/
theorem reachE_clamp {a b : List FileLine} {x y : Int} {d : Nat}
    (h : ReachE a b x y d) :
    ∃ c : Nat, Reach a b (min x (a.length : Int)) (min y (b.length : Int)) c ∧
      (c : Int) + (x - min x (a.length : Int)) + (y - min y (b.length : Int)) ≤ d := by
  induction h with
  | start =>
    refine ⟨0, ?_, ?_⟩
    · have h1 : min (0 : Int) (a.length : Int) = 0 := by omega
      have h2 : min (0 : Int) (b.length : Int) = 0 := by omega
      rw [h1, h2]
      exact .start
    · omega
  | @del x y d h ih =>
    obtain ⟨c, hr, hb⟩ := ih
    have hxn := (reachE_nonneg h).1
    by_cases hx : x < (a.length : Int)
    · have h1 : min x (a.length : Int) = x := by omega
      have h2 : min (x + 1) (a.length : Int) = x + 1 := by omega
      rw [h1] at hr hb
      refine ⟨c + 1, ?_, by push_cast; omega⟩
      rw [h2]
      exact .del hr hx
    · have h1 : min x (a.length : Int) = (a.length : Int) := by omega
      have h2 : min (x + 1) (a.length : Int) = (a.length : Int) := by omega
      rw [h1] at hr hb
      rw [h2]
      exact ⟨c, hr, by omega⟩
  | @ins x y d h ih =>
    obtain ⟨c, hr, hb⟩ := ih
    have hyn := (reachE_nonneg h).2
    by_cases hy : y < (b.length : Int)
    · have h1 : min y (b.length : Int) = y := by omega
      have h2 : min (y + 1) (b.length : Int) = y + 1 := by omega
      rw [h1] at hr hb
      refine ⟨c + 1, ?_, by push_cast; omega⟩
      rw [h2]
      exact .ins hr hy
    · have h1 : min y (b.length : Int) = (b.length : Int) := by omega
      have h2 : min (y + 1) (b.length : Int) = (b.length : Int) := by omega
      rw [h1] at hr hb
      rw [h2]
      exact ⟨c, hr, by omega⟩
  | @diag x y d h hx0 hxn hy0 hym ht ih =>
    obtain ⟨c, hr, hb⟩ := ih
    have h1 : min x (a.length : Int) = x := by omega
    have h2 : min y (b.length : Int) = y := by omega
    have h3 : min (x + 1) (a.length : Int) = x + 1 := by omega
    have h4 : min (y + 1) (b.length : Int) = y + 1 := by omega
    rw [h1, h2] at hr hb
    rw [h3, h4]
    exact ⟨c, .diag hr hxn hym ht, by omega⟩

/-!
### `CT` and `editDist`
-/

theorem ct_nil_left (bs : List String) : CT [] bs bs.length := by
  induction bs with
  | nil => exact .nil
  | cons t bs ih => exact .ins t ih

theorem ct_snoc_del {as bs : List String} {d : Nat} (t : String)
    (h : CT as bs d) : CT (as ++ [t]) bs (d + 1) := by
  induction h with
  | nil => exact .del t .nil
  | del s _ ih => exact .del s ih
  | ins s _ ih => exact .ins s ih
  | diag s _ ih => exact .diag s ih

theorem ct_snoc_ins {as bs : List String} {d : Nat} (t : String)
    (h : CT as bs d) : CT as (bs ++ [t]) (d + 1) := by
  induction h with
  | nil => exact .ins t .nil
  | del s _ ih => exact .del s ih
  | ins s _ ih => exact .ins s ih
  | diag s _ ih => exact .diag s ih

theorem ct_snoc_diag {as bs : List String} {d : Nat} (t : String)
    (h : CT as bs d) : CT (as ++ [t]) (bs ++ [t]) d := by
  induction h with
  | nil => exact .diag t .nil
  | del s _ ih => exact .del s ih
  | ins s _ ih => exact .ins s ih
  | diag s _ ih => exact .diag s ih

theorem editDist_nil_right : ∀ as : List String, editDist as [] = as.length
  | [] => by rw [editDist]
  | t :: as => by rw [editDist]; rfl

theorem ct_editDist : ∀ as bs : List String, CT as bs (editDist as bs)
  | [], bs => by
    rw [editDist]
    exact ct_nil_left bs
  | t :: as, [] => by
    rw [editDist]
    exact .del t (editDist_nil_right as ▸ ct_editDist as [])
  | t :: as, s :: bs => by
    rw [editDist]
    have h1 : CT (t :: as) (s :: bs) (editDist as (s :: bs) + 1) :=
      .del t (ct_editDist as (s :: bs))
    have h2 : CT (t :: as) (s :: bs) (editDist (t :: as) bs + 1) :=
      .ins s (ct_editDist (t :: as) bs)
    by_cases hts : t = s
    · subst hts
      simp only [if_pos rfl]
      have h3 : CT (t :: as) (t :: bs) (editDist as bs) := .diag t (ct_editDist as bs)
      rcases Nat.le_total (editDist as bs)
          (min (editDist as (t :: bs) + 1) (editDist (t :: as) bs + 1)) with hle | hle
      · rw [min_eq_left hle]
        exact h3
      · rw [min_eq_right hle]
        rcases Nat.le_total (editDist as (t :: bs) + 1) (editDist (t :: as) bs + 1) with
          h4 | h4
        · rw [min_eq_left h4]
          exact h1
        · rw [min_eq_right h4]
          exact h2
    · rw [if_neg hts]
      rcases Nat.le_total (editDist as (s :: bs) + 1) (editDist (t :: as) bs + 1) with
        h4 | h4
      · rw [min_eq_left h4]
        exact h1
      · rw [min_eq_right h4]
        exact h2
termination_by as bs => as.length + bs.length

theorem editDist_del_le (t : String) (as bs : List String) :
    editDist (t :: as) bs ≤ editDist as bs + 1 := by
  cases bs with
  | nil =>
    rw [editDist_nil_right, editDist_nil_right]
    simp
  | cons s bs =>
    rw [editDist]
    by_cases hts : t = s
    · rw [if_pos hts]
      exact le_trans (min_le_right _ _) (le_trans (min_le_left _ _) (le_refl _))
    · rw [if_neg hts]
      exact min_le_left _ _

theorem editDist_ins_le (t : String) (as bs : List String) :
    editDist as (t :: bs) ≤ editDist as bs + 1 := by
  cases as with
  | nil =>
    rw [editDist, editDist]
    simp
  | cons s as =>
    rw [editDist]
    by_cases hts : s = t
    · rw [if_pos hts]
      exact le_trans (min_le_right _ _) (min_le_right _ _)
    · rw [if_neg hts]
      exact min_le_right _ _

theorem editDist_diag_le (t : String) (as bs : List String) :
    editDist (t :: as) (t :: bs) ≤ editDist as bs := by
  rw [editDist, if_pos rfl]
  exact min_le_left _ _

theorem ct_min {as bs : List String} {d : Nat} (h : CT as bs d) :
    editDist as bs ≤ d := by
  induction h with
  | nil => rw [editDist]; exact le_refl 0
  | del t _ ih => exact le_trans (editDist_del_le _ _ _) (by omega)
  | ins t _ ih => exact le_trans (editDist_ins_le _ _ _) (by omega)
  | diag t _ ih => exact le_trans (editDist_diag_le _ _ _) ih

theorem ct_full (as bs : List String) : CT as bs (as.length + bs.length) := by
  induction as with
  | nil => simpa using ct_nil_left bs
  | cons t as ih =>
    have := CT.del t ih
    simpa [Nat.succ_add, Nat.add_comm, Nat.add_left_comm] using CT.del t ih

theorem editDist_le_sum (as bs : List String) :
    editDist as bs ≤ as.length + bs.length :=
  ct_min (ct_full as bs)

/-!
### From `CT` to grid paths and back
-/

theorem textAt_texts {l : List FileLine} {x : Nat} (hx : x < l.length) :
    textAt l (x : Int) = (texts l).get ⟨x, by simpa [texts] using hx⟩ := by
  simp [textAt, texts, Int.toNat_ofNat, List.get?_eq_getElem?, List.getElem?_eq_getElem hx,
    List.getElem_map]

theorem drop_cons_inv {l : List String} {x : Nat} {t : String} {rest : List String}
    (h : l.drop x = t :: rest) :
    ∃ hx : x < l.length, l.get ⟨x, hx⟩ = t ∧ rest = l.drop (x + 1) := by
  have hx : x < l.length := by
    by_contra hge
    rw [List.drop_eq_nil_of_le (by omega)] at h
    exact List.noConfusion h
  refine ⟨hx, ?_, ?_⟩
  · have := List.drop_eq_getElem_cons hx
    rw [this] at h
    exact (List.cons.injEq _ _ _ _ ▸ h).1.symm ▸ rfl
  · have := List.drop_eq_getElem_cons hx
    rw [this] at h
    exact ((List.cons.injEq _ _ _ _).mp h).2.symm

theorem ct_drop_to_reach {a b : List FileLine} :
    ∀ {xs ys : List String} {d : Nat}, CT xs ys d →
      ∀ {x y : Nat} {c : Nat}, xs = (texts a).drop x → ys = (texts b).drop y →
        Reach a b x y c → Reach a b (a.length : Int) (b.length : Int) (c + d) := by
  intro xs ys d h
  induction h with
  | nil =>
    intro x y c hxs hys hr
    have hxl : (texts a).length ≤ x := by
      by_contra hlt
      have : ((texts a).drop x).length = (texts a).length - x := List.length_drop _ _
      rw [← hxs] at this
      simp at this
      omega
    have hyl : (texts b).length ≤ y := by
      by_contra hlt
      have : ((texts b).drop y).length = (texts b).length - y := List.length_drop _ _
      rw [← hys] at this
      simp at this
      omega
    simp [texts] at hxl hyl
    have hle := reach_le hr
    have hx : (x : Int) = (a.length : Int) := by omega
    have hy : (y : Int) = (b.length : Int) := by omega
    rw [hx, hy] at hr
    simpa using hr
  | @del as bs d t _ ih =>
    intro x y c hxs hys hr
    obtain ⟨hx, hget, hrest⟩ := drop_cons_inv hxs.symm
    have hxn : (x : Int) < (a.length : Int) := by
      simp [texts] at hx
      exact_mod_cast hx
    have hstep : Reach a b ((x : Int) + 1) y (c + 1) := .del hr hxn
    have hcast : ((x + 1 : Nat) : Int) = (x : Int) + 1 := by push_cast; omega
    rw [← hcast] at hstep
    have := ih hrest hys hstep
    have harith : c + 1 + d = c + (d + 1) := by omega
    rwa [harith] at this
  | @ins as bs d t _ ih =>
    intro x y c hxs hys hr
    obtain ⟨hy, hget, hrest⟩ := drop_cons_inv hys.symm
    have hym : (y : Int) < (b.length : Int) := by
      simp [texts] at hy
      exact_mod_cast hy
    have hstep : Reach a b x ((y : Int) + 1) (c + 1) := .ins hr hym
    have hcast : ((y + 1 : Nat) : Int) = (y : Int) + 1 := by push_cast; omega
    rw [← hcast] at hstep
    have := ih hxs hrest hstep
    have harith : c + 1 + d = c + (d + 1) := by omega
    rwa [harith] at this
  | @diag as bs d t _ ih =>
    intro x y c hxs hys hr
    obtain ⟨hx, hgx, hrx⟩ := drop_cons_inv hxs.symm
    obtain ⟨hy, hgy, hry⟩ := drop_cons_inv hys.symm
    have hx2 : x < a.length := by simpa [texts] using hx
    have hy2 : y < b.length := by simpa [texts] using hy
    have hxn : (x : Int) < (a.length : Int) := by exact_mod_cast hx2
    have hym : (y : Int) < (b.length : Int) := by exact_mod_cast hy2
    have ht : textAt a (x : Int) = textAt b (y : Int) := by
      rw [textAt_texts hx2, textAt_texts hy2, hgx, hgy]
    have hstep : Reach a b ((x : Int) + 1) ((y : Int) + 1) c := .diag hr hxn hym ht
    have hcx : ((x + 1 : Nat) : Int) = (x : Int) + 1 := by push_cast; omega
    have hcy : ((y + 1 : Nat) : Int) = (y : Int) + 1 := by push_cast; omega
    rw [← hcx, ← hcy] at hstep
    exact ih hrx hry hstep

/-- The corner of the grid is reachable with exactly `editDist` edits. -/
theorem reach_corner (a b : List FileLine) :
    Reach a b (a.length : Int) (b.length : Int) (Dstar a b) := by
  have h := ct_editDist (texts a) (texts b)
  have := ct_drop_to_reach (a := a) (b := b) h
    (x := 0) (y := 0) (c := 0) (by simp) (by simp) .start
  simpa [Dstar] using this

theorem take_succ_of_lt {l : List String} {x : Nat} (hx : x < l.length) :
    l.take (x + 1) = l.take x ++ [l.get ⟨x, hx⟩] := by
  rw [List.take_succ]
  simp [List.get?_eq_getElem?, List.getElem?_eq_getElem hx]

theorem reach_to_ct {a b : List FileLine} {x y : Int} {d : Nat}
    (h : Reach a b x y d) :
    CT ((texts a).take x.toNat) ((texts b).take y.toNat) d := by
  induction h with
  | start => simpa using CT.nil
  | @del x y d h hx ih =>
    have hx0 := (reach_nonneg h).1
    have hxlt : x.toNat < (texts a).length := by simp [texts]; omega
    have : (x + 1).toNat = x.toNat + 1 := by omega
    rw [this, take_succ_of_lt hxlt]
    exact ct_snoc_del _ ih
  | @ins x y d h hy ih =>
    have hy0 := (reach_nonneg h).2
    have hylt : y.toNat < (texts b).length := by simp [texts]; omega
    have : (y + 1).toNat = y.toNat + 1 := by omega
    rw [this, take_succ_of_lt hylt]
    exact ct_snoc_ins _ ih
  | @diag x y d h hx hy ht ih =>
    have hx0 := (reach_nonneg h).1
    have hy0 := (reach_nonneg h).2
    have hxlt : x.toNat < (texts a).length := by simp [texts]; omega
    have hylt : y.toNat < (texts b).length := by simp [texts]; omega
    have hxx : (x + 1).toNat = x.toNat + 1 := by omega
    have hyy : (y + 1).toNat = y.toNat + 1 := by omega
    rw [hxx, hyy, take_succ_of_lt hxlt, take_succ_of_lt hylt]
    have hxa : x.toNat < a.length := by simpa [texts] using hxlt
    have hyb : y.toNat < b.length := by simpa [texts] using hylt
    have htt : (texts a).get ⟨x.toNat, hxlt⟩ = (texts b).get ⟨y.toNat, hylt⟩ := by
      have h1 := textAt_texts hxa
      have h2 := textAt_texts hyb
      have hx1 : ((x.toNat : Nat) : Int) = x := by omega
      have hy1 : ((y.toNat : Nat) : Int) = y := by omega
      rw [hx1] at h1
      rw [hy1] at h2
      rw [← h1, ← h2, ht]
    rw [htt]
    exact ct_snoc_diag _ ih

/-- Any real path to the corner has at least `editDist` edits. -/
theorem reach_min {a b : List FileLine} {d : Nat}
    (h : Reach a b (a.length : Int) (b.length : Int) d) : Dstar a b ≤ d := by
  have := reach_to_ct h
  simp only [Int.toNat_ofNat] at this
  have hta : (texts a).take a.length = texts a := by simp [texts]
  have htb : (texts b).take b.length = texts b := by simp [texts]
  rw [hta, htb] at this
  exact ct_min this

/-!
### The snake loop
-/

theorem snakeF_ge (a b : List FileLine) :
    ∀ (f : Nat) (x y : Int), x ≤ (snakeF a b f x y).1
  | 0, x, y => le_refl x
  | f + 1, x, y => by
    rw [snakeF]
    split
    · exact le_trans (by omega) (snakeF_ge a b f (x + 1) (y + 1))
    · exact le_refl x

theorem snakeF_sub (a b : List FileLine) :
    ∀ (f : Nat) (x y : Int), (snakeF a b f x y).2 - (snakeF a b f x y).1 = y - x
  | 0, x, y => by simp [snakeF]
  | f + 1, x, y => by
    rw [snakeF]
    split
    · have := snakeF_sub a b f (x + 1) (y + 1)
      omega
    · omega

theorem snakeF_content (a b : List FileLine) :
    ∀ (f : Nat) (x y t : Int), x ≤ t → t < (snakeF a b f x y).1 →
      sguard a b t (y + (t - x))
  | 0, x, y, t => by
    intro h1 h2
    rw [snakeF] at h2
    simp only at h2
    omega
  | f + 1, x, y, t => by
    intro h1 h2
    rw [snakeF] at h2
    split at h2
    · rcases eq_or_lt_of_le h1 with heq | hlt
      · rw [← heq]
        have harith : y + (x - x) = y := by omega
        rw [harith]
        rename_i hg
        exact hg
      · have := snakeF_content a b f (x + 1) (y + 1) t (by omega) h2
        have harith : y + 1 + (t - (x + 1)) = y + (t - x) := by omega
        rwa [harith] at this
    · simp only at h2
      omega

theorem snakeF_stop (a b : List FileLine) :
    ∀ (f : Nat) (x y : Int), ((a.length : Int) - x).toNat < f →
      ¬sguard a b (snakeF a b f x y).1 (snakeF a b f x y).2
  | 0, x, y => by omega
  | f + 1, x, y => by
    intro hf
    rw [snakeF]
    split
    · have hxn : x < (a.length : Int) := by
        rename_i hg
        exact hg.2.2.1
      exact snakeF_stop a b f (x + 1) (y + 1) (by omega)
    · rename_i hg
      exact hg

theorem snakeF_reachE (a b : List FileLine) :
    ∀ (f : Nat) (x y : Int) (d : Nat), ReachE a b x y d →
      ReachE a b (snakeF a b f x y).1 (snakeF a b f x y).2 d
  | 0, x, y, d, h => h
  | f + 1, x, y, d, h => by
    rw [snakeF]
    split
    · rename_i hg
      exact snakeF_reachE a b f (x + 1) (y + 1) d
        (.diag h hg.1 hg.2.2.1 hg.2.1 hg.2.2.2.1 hg.2.2.2.2)
    · exact h

/-!
### Invariants of the ideal vector `WA`
-/

theorem WA_write {a b : List FileLine} {d : Nat} {k : Int} (h : inRound d k) :
    WA a b (d + 1) k =
      (snakeF a b (a.length + b.length + 1) (moveX d (WA a b d) k)
        (moveX d (WA a b d) k - k)).1 := by
  rw [WA, if_pos h]

theorem WA_frame {a b : List FileLine} {d : Nat} {k : Int} (h : ¬inRound d k) :
    WA a b (d + 1) k = WA a b d k := by
  rw [WA, if_neg h]

theorem WA_nonneg (a b : List FileLine) : ∀ (l : Nat) (k : Int), 0 ≤ WA a b l k := by
  intro l
  induction l with
  | zero => intro k; exact le_refl 0
  | succ d ih =>
    intro k
    by_cases h : inRound d k
    · rw [WA_write h]
      refine le_trans ?_ (snakeF_ge a b _ _ _)
      unfold moveX
      split
      · exact ih _
      · split
        · exact ih _
        · have := ih (k - 1)
          omega
    · rw [WA_frame h]
      exact ih k

theorem WA_gek (a b : List FileLine) :
    ∀ (d : Nat) (k : Int), inRound d k → k ≤ WA a b (d + 1) k := by
  intro d
  induction d with
  | zero =>
    intro k hk
    have hk0 : k = 0 := by
      rcases hk with ⟨h1, h2, h3⟩
      omega
    subst hk0
    rw [WA_write hk]
    exact le_trans (WA_nonneg a b 0 _) (by
      refine le_trans ?_ (snakeF_ge a b _ _ _)
      unfold moveX
      split
      · exact le_refl _
      · split
        · exact le_refl _
        · omega)
  | succ d ih =>
    intro k hk
    rw [WA_write hk]
    refine le_trans ?_ (snakeF_ge a b _ _ _)
    unfold moveX
    split
    · rename_i hkd
      have hkn : k ≤ 0 := by omega
      exact le_trans hkn (WA_nonneg a b _ _)
    · split
      · rename_i hkd hcond
        rcases Int.lt_or_le k 0 with hneg | hpos
        · exact le_trans (by omega) (WA_nonneg a b _ _)
        · have hin : inRound d (k + 1) := by
            rcases hk with ⟨h1, h2, h3⟩
            rcases hcond with ⟨hne, _⟩
            refine ⟨by omega, by omega, by omega⟩
          have := ih (k + 1) hin
          omega
      · rename_i hkd hcond
        rcases Int.lt_or_le (k - 1) 0 with hneg | hpos
        · have := WA_nonneg a b (d + 1) (k - 1)
          omega
        · have hin : inRound d (k - 1) := by
            rcases hk with ⟨h1, h2, h3⟩
            refine ⟨by omega, by omega, by omega⟩
          have := ih (k - 1) hin
          omega

theorem WA_sound (a b : List FileLine) :
    ∀ (d : Nat) (k : Int), inRound d k →
      ReachE a b (WA a b (d + 1) k) (WA a b (d + 1) k - k) d := by
  intro d
  induction d with
  | zero =>
    intro k hk
    have hk0 : k = 0 := by
      rcases hk with ⟨h1, h2, h3⟩
      omega
    subst hk0
    have hsub := snakeF_sub a b (a.length + b.length + 1)
      (moveX 0 (WA a b 0) 0) (moveX 0 (WA a b 0) 0 - 0)
    rw [WA_write hk]
    have hz : (snakeF a b (a.length + b.length + 1) (moveX 0 (WA a b 0) 0)
        (moveX 0 (WA a b 0) 0 - 0)).2 =
        (snakeF a b (a.length + b.length + 1) (moveX 0 (WA a b 0) 0)
          (moveX 0 (WA a b 0) 0 - 0)).1 - 0 := by omega
    rw [← hz]
    refine snakeF_reachE a b _ _ _ 0 ?_
    have hmv : moveX 0 (WA a b 0) 0 = 0 := by
      simp [moveX, WA]
    rw [hmv]
    have : (0 : Int) - 0 = 0 := by omega
    rw [this]
    exact .start
  | succ d ih =>
    intro k hk
    have hsub := snakeF_sub a b (a.length + b.length + 1)
      (moveX (d + 1) (WA a b (d + 1)) k) (moveX (d + 1) (WA a b (d + 1)) k - k)
    rw [WA_write hk]
    have hz : (snakeF a b (a.length + b.length + 1) (moveX (d + 1) (WA a b (d + 1)) k)
        (moveX (d + 1) (WA a b (d + 1)) k - k)).2 =
        (snakeF a b (a.length + b.length + 1) (moveX (d + 1) (WA a b (d + 1)) k)
          (moveX (d + 1) (WA a b (d + 1)) k - k)).1 - k := by omega
    rw [← hz]
    refine snakeF_reachE a b _ _ _ (d + 1) ?_
    unfold moveX
    split
    · rename_i hkd
      have hin : inRound d (k + 1) := by
        rcases hk with ⟨h1, h2, h3⟩
        refine ⟨by omega, by omega, by omega⟩
      have hr := ih (k + 1) hin
      have := ReachE.ins hr
      have harith : WA a b (d + 1) (k + 1) - (k + 1) + 1 = WA a b (d + 1) (k + 1) - k := by
        omega
      rwa [harith] at this
    · split
      · rename_i hkd hcond
        have hin : inRound d (k + 1) := by
          rcases hk with ⟨h1, h2, h3⟩
          rcases hcond with ⟨hne, _⟩
          refine ⟨by omega, by omega, by omega⟩
        have hr := ih (k + 1) hin
        have := ReachE.ins hr
        have harith : WA a b (d + 1) (k + 1) - (k + 1) + 1 = WA a b (d + 1) (k + 1) - k := by
          omega
        rwa [harith] at this
      · rename_i hkd hcond
        have hne : k ≠ -((d : Int) + 1) := by
          intro hcontra
          exact hkd (by push_cast; omega)
        have hin : inRound d (k - 1) := by
          rcases hk with ⟨h1, h2, h3⟩
          refine ⟨by omega, by omega, by omega⟩
        have hr := ih (k - 1) hin
        have := ReachE.del hr
        have harith : WA a b (d + 1) (k - 1) - (k - 1) = WA a b (d + 1) (k - 1) + 1 - k := by
          omega
        rwa [harith] at this

theorem WA_max {a b : List FileLine} {d : Nat} {k : Int} (hk : inRound d k) :
    ¬sguard a b (WA a b (d + 1) k) (WA a b (d + 1) k - k) := by
  have hnn : 0 ≤ moveX d (WA a b d) k := by
    unfold moveX
    split
    · exact WA_nonneg a b _ _
    · split
      · exact WA_nonneg a b _ _
      · have := WA_nonneg a b d (k - 1)
        omega
  have hstop := snakeF_stop a b (a.length + b.length + 1)
    (moveX d (WA a b d) k) (moveX d (WA a b d) k - k) (by omega)
  have hsub := snakeF_sub a b (a.length + b.length + 1)
    (moveX d (WA a b d) k) (moveX d (WA a b d) k - k)
  rw [WA_write hk]
  intro hg
  apply hstop
  rcases hg with ⟨h1, h2, h3, h4, h5⟩
  refine ⟨h1, ?_, h3, ?_, ?_⟩
  · have : (snakeF a b (a.length + b.length + 1) (moveX d (WA a b d) k)
        (moveX d (WA a b d) k - k)).2 =
        (snakeF a b (a.length + b.length + 1) (moveX d (WA a b d) k)
          (moveX d (WA a b d) k - k)).1 - k := by omega
    rw [this]
    exact h2
  · have : (snakeF a b (a.length + b.length + 1) (moveX d (WA a b d) k)
        (moveX d (WA a b d) k - k)).2 =
        (snakeF a b (a.length + b.length + 1) (moveX d (WA a b d) k)
          (moveX d (WA a b d) k - k)).1 - k := by omega
    rw [this]
    exact h4
  · have : (snakeF a b (a.length + b.length + 1) (moveX d (WA a b d) k)
        (moveX d (WA a b d) k - k)).2 =
        (snakeF a b (a.length + b.length + 1) (moveX d (WA a b d) k)
          (moveX d (WA a b d) k - k)).1 - k := by omega
    rw [this]
    exact h5

/-- Greedy dominance: the vector value of a diagonal after round `d` is at
least the x-coordinate of every real `d`-edit path ending on that diagonal. -/
theorem WA_dom {a b : List FileLine} {x y : Int} {d : Nat}
    (h : Reach a b x y d) : x ≤ WA a b (d + 1) (x - y) := by
  induction h with
  | start => exact WA_nonneg a b 1 0
  | @del x y d h hx ih =>
    have hb := reachE_bound (reachE_of_reach h)
    have hp := reachE_parity (reachE_of_reach h)
    have hin : inRound (d + 1) (x + 1 - y) := by
      refine ⟨by push_cast; omega, by push_cast; omega, by push_cast; push_cast at hp; omega⟩
    rw [WA_write hin]
    refine le_trans ?_ (snakeF_ge a b _ _ _)
    unfold moveX
    split
    · rename_i hkd
      exact absurd hkd (by push_cast; omega)
    · split
      · rename_i hkd hcond
        have harith : x + 1 - y - 1 = x - y := by omega
        rw [harith] at hcond
        omega
      · have harith : x + 1 - y - 1 = x - y := by omega
        rw [harith]
        omega
  | @ins x y d h hy ih =>
    have hb := reachE_bound (reachE_of_reach h)
    have hp := reachE_parity (reachE_of_reach h)
    have hin : inRound (d + 1) (x - (y + 1)) := by
      refine ⟨by push_cast; omega, by push_cast; omega, by push_cast; push_cast at hp; omega⟩
    rw [WA_write hin]
    refine le_trans ?_ (snakeF_ge a b _ _ _)
    unfold moveX
    split
    · rename_i hkd
      have harith : x - (y + 1) + 1 = x - y := by omega
      rw [harith]
      exact ih
    · split
      · rename_i hkd hcond
        have harith : x - (y + 1) + 1 = x - y := by omega
        rw [harith]
        exact ih
      · rename_i hkd hcond
        rw [not_and_or] at hcond
        rcases hcond with hcond | hcond
        · rw [not_not] at hcond
          exact absurd hcond (by push_cast; omega)
        · rw [not_lt] at hcond
          have harith : x - (y + 1) + 1 = x - y := by omega
          rw [harith] at hcond
          omega
  | @diag x y d h hx hy ht ih =>
    have hb := reachE_bound (reachE_of_reach h)
    have hp := reachE_parity (reachE_of_reach h)
    have hnn := reach_nonneg h
    have hin : inRound d (x - y) := by
      refine ⟨by omega, by omega, by omega⟩
    have harith : x + 1 - (y + 1) = x - y := by omega
    rw [harith]
    rcases eq_or_lt_of_le ih with heq | hlt
    · exfalso
      apply WA_max hin
      rw [← heq]
      have harith2 : x - (x - y) = y := by omega
      rw [harith2]
      exact ⟨hnn.1, hnn.2, hx, hy, ht⟩
    · omega

/-!
### The round where the loop terminates
-/

theorem fire_le {a b : List FileLine} {d : Nat} {k : Int}
    (hk : inRound d k) (hf : fireCond a b d k) : Dstar a b ≤ d := by
  have hs := WA_sound a b d k hk
  obtain ⟨c, hr, hb⟩ := reachE_clamp hs
  rcases hf with ⟨hf1, hf2⟩
  have h1 : min (WA a b (d + 1) k) (a.length : Int) = (a.length : Int) := by omega
  have h2 : min (WA a b (d + 1) k - k) (b.length : Int) = (b.length : Int) := by omega
  rw [h1, h2] at hr hb
  have := reach_min hr
  omega

theorem fire_strict {a b : List FileLine} {d : Nat} {k : Int}
    (hk : inRound d k) (hf : fireCond a b d k)
    (hs : (a.length : Int) < WA a b (d + 1) k ∨
      (b.length : Int) < WA a b (d + 1) k - k) : Dstar a b < d := by
  have hsnd := WA_sound a b d k hk
  obtain ⟨c, hr, hb⟩ := reachE_clamp hsnd
  rcases hf with ⟨hf1, hf2⟩
  have h1 : min (WA a b (d + 1) k) (a.length : Int) = (a.length : Int) := by omega
  have h2 : min (WA a b (d + 1) k - k) (b.length : Int) = (b.length : Int) := by omega
  rw [h1, h2] at hr hb
  have := reach_min hr
  omega

theorem no_fire_lt {a b : List FileLine} {d : Nat} {k : Int}
    (hd : d < Dstar a b) (hk : inRound d k) : ¬fireCond a b d k := by
  intro hf
  have := fire_le hk hf
  omega

theorem inRound_kstar (a b : List FileLine) :
    inRound (Dstar a b) ((a.length : Int) - (b.length : Int)) := by
  have h := reachE_of_reach (reach_corner a b)
  have hb := reachE_bound h
  have hp := reachE_parity h
  exact ⟨by omega, by omega, hp⟩

theorem WA_kstar (a b : List FileLine) :
    WA a b (Dstar a b + 1) ((a.length : Int) - (b.length : Int)) = (a.length : Int) := by
  have hge := WA_dom (reach_corner a b)
  rcases eq_or_lt_of_le hge with heq | hlt
  · exact heq.symm
  · exfalso
    have hk := inRound_kstar a b
    have hf : fireCond a b (Dstar a b) ((a.length : Int) - (b.length : Int)) := by
      constructor
      · omega
      · omega
    have := fire_strict hk hf (Or.inl hlt)
    omega

theorem fire_kstar (a b : List FileLine) :
    fireCond a b (Dstar a b) ((a.length : Int) - (b.length : Int)) := by
  rw [fireCond, WA_kstar a b]
  constructor
  · exact le_refl _
  · omega

theorem no_fire_before_kstar {a b : List FileLine} {k : Int}
    (hk : inRound (Dstar a b) k) (hlt : k < (a.length : Int) - (b.length : Int)) :
    ¬fireCond a b (Dstar a b) k := by
  intro hf
  have hstrict : (b.length : Int) < WA a b (Dstar a b + 1) k - k := by
    rcases hf with ⟨h1, h2⟩
    omega
  have := fire_strict hk hf (Or.inr hstrict)
  omega

end TestPerf
